import Mathlib

/-!
Verification of the dimalimbo repository's leaderboard storage/cache layer and
game-session state machine, as a shallow embedding in Lean.

Conventions of the embedding:
* Go machine integers are modelled as Int (no claim exercises overflow).
* Go float64 coordinates are modelled as Rat; the clamping and collision code
  uses only comparison, addition and subtraction, which are exact.
* Go strings are byte sequences; they are modelled as List Nat (byte values),
  with UTF-8 encoding/decoding modelled explicitly where the code manipulates
  runes (ebiten.InputChars, strings.TrimSpace).
* time.Now() is modelled by an explicit Int-valued timestamp argument threaded
  through the operations that read the clock.
* The sqlite database behind the desktop Storage is modelled as the list of
  rows of the winners table together with the AUTOINCREMENT counter; a
  successful ExecContext INSERT appends a row, and the SELECT with
  ORDER BY score DESC, id ASC LIMIT n is modelled as sorting by that key and
  taking n.  Fallibility of the driver is modelled by a Bool argument saying
  whether the statement succeeds.
* localStorage behind the js/wasm Storage build is modelled as the stored list
  of winners (JSON round-tripping is the identity on well-formed data).
-/

/-! ## Data model: Winner (internal/model, winners table) -/

/-- Winner is one leaderboard row: id (AUTOINCREMENT / UnixNano), name (Go
string, i.e. bytes), score, created_at timestamp. -/
structure Winner where
  id : Int
  name : List Nat
  score : Int
  createdAt : Int
deriving DecidableEq

/-! ## ScoreCache (internal/cache/cache.go, TopWinnersCache) -/

/-- CachedItem mirrors the cachedItem struct: the winners slice and the
expiry instant computed at Set time. -/
structure CachedItem where
  winners : List Winner
  expiresAt : Int
deriving DecidableEq

/-- TopWinnersCache models the items map keyed by limit, plus the fixed ttl.
The Go map is modelled as an association list with at most one entry per key
(maintained by construction: writes first erase the key). -/
structure TopWinnersCache where
  items : List (Int × CachedItem)
  ttl : Int
deriving DecidableEq

/-- Map lookup items[limit]: first (and only) entry with the given key. -/
def lookupItem (k : Int) : List (Int × CachedItem) → Option CachedItem
  | [] => none
  | (k', it) :: rest => if k' = k then some it else lookupItem k rest

/-- Map deletion delete(items, limit). -/
def eraseItem (k : Int) (items : List (Int × CachedItem)) : List (Int × CachedItem) :=
  items.filter (fun p => decide (p.1 ≠ k))

/-- Get of TopWinnersCache at an explicit instant now, returning the value
found (if any) and the possibly mutated cache.  Mirrors cache.go lines 28-42:
a missing key is a miss; an entry with time.Now().After(expiresAt), i.e.
expiresAt strictly less than now, is deleted from the map and reported as a
miss; otherwise the entry is returned. -/
def cacheGet (c : TopWinnersCache) (limit now : Int) :
    Option (List Winner) × TopWinnersCache :=
  match lookupItem limit c.items with
  | none => (none, c)
  | some it =>
    if it.expiresAt < now then
      (none, { c with items := eraseItem limit c.items })
    else
      (some it.winners, c)

/-- Set of TopWinnersCache: items[limit] = cachedItem{winners, now+ttl}.
Map assignment is modelled by erasing the key and consing the new entry. -/
def cacheSet (c : TopWinnersCache) (limit : Int) (ws : List Winner) (now : Int) :
    TopWinnersCache :=
  { c with items := (limit, ⟨ws, now + c.ttl⟩) :: eraseItem limit c.items }

/-- InvalidateAll replaces the map by a fresh empty one. -/
def invalidateAll (c : TopWinnersCache) : TopWinnersCache :=
  { c with items := [] }

/-- NewTopWinnersCache ttl. -/
def newCache (ttl : Int) : TopWinnersCache := ⟨[], ttl⟩

/-! ## LeaderboardStore, sqlite build (the second file of internal/cache/cache.go,
package storage, non-js build) -/

/-- Storage models the desktop (sqlite) Storage: the rows of the winners
table, the AUTOINCREMENT id counter, and the injected cache. -/
structure Storage where
  winners : List Winner
  nextId : Int
  cache : TopWinnersCache
deriving DecidableEq

/-- SaveWinner of the sqlite build: reject exactly the empty string (the code
checks name == "" and performs no trimming), then run the INSERT; on success
invalidate the whole cache, on driver failure leave everything unchanged. -/
def saveWinner (s : Storage) (name : List Nat) (score now : Int) (execOk : Bool) :
    Except (List Nat) Storage :=
  if name = [] then .error [110, 97, 109, 101]
  else if execOk then
    .ok { winners := s.winners ++ [⟨s.nextId, name, score, now⟩]
          nextId := s.nextId + 1
          cache := invalidateAll s.cache }
  else .error [101, 120, 101, 99]

/-- Ordering key of the SELECT: score descending, ties by id ascending. -/
def rLex (a b : Winner) : Prop :=
  b.score < a.score ∨ (a.score = b.score ∧ a.id ≤ b.id)

instance : DecidableRel rLex := fun a b => by
  unfold rLex; infer_instance

instance : IsTotal Winner rLex := by
  constructor; intro a b; unfold rLex; omega

instance : IsTrans Winner rLex := by
  constructor; intro a b c hab hbc; unfold rLex at *; omega

/-- Result order of SELECT id, name, score, created_at FROM winners ORDER BY
score DESC, id ASC. -/
def sortWinners (l : List Winner) : List Winner :=
  List.insertionSort rLex l

/-- TopWinners substitutes the default 10 for limit at most 0. -/
def adjLimit (limit : Int) : Int := if limit ≤ 0 then 10 else limit

/-- TopWinners of the sqlite build at an explicit instant: adjust the limit,
consult the cache, and on a miss run the SELECT (modelled as sort + take),
populate the cache and return.  queryOk models whether the SELECT and row
scan succeed; the cache mutation performed by Get (expiry eviction) survives
even a failed query, matching the code order. -/
def topWinners (s : Storage) (limit now : Int) (queryOk : Bool) :
    Except (List Nat) (List Winner) × Storage :=
  match cacheGet s.cache (adjLimit limit) now with
  | (some ws, c') => (.ok ws, { s with cache := c' })
  | (none, c') =>
    if queryOk then
      (.ok ((sortWinners s.winners).take (adjLimit limit).toNat),
        { s with cache := cacheSet c' (adjLimit limit)
                   ((sortWinners s.winners).take (adjLimit limit).toNat) now })
    else
      (.error [113, 117, 101, 114, 121], { s with cache := c' })

/-- Reset of the sqlite build: transactional DELETE FROM winners, then cache
invalidation; on driver failure nothing changes (the code returns before
InvalidateAll).  AUTOINCREMENT keeps its sequence. -/
def resetStore (s : Storage) (execOk : Bool) : Except (List Nat) Storage :=
  if execOk then
    .ok { winners := [], nextId := s.nextId, cache := invalidateAll s.cache }
  else .error [101, 120, 101, 99]

/-! ## Basic cache lemmas -/

theorem lookupItem_eraseItem (k : Int) (items : List (Int × CachedItem)) :
    lookupItem k (eraseItem k items) = none := by
  induction items with
  | nil => rfl
  | cons p rest ih =>
    rcases p with ⟨pk, pv⟩
    by_cases h : pk = k
    · simpa [eraseItem, List.filter_cons, h] using ih
    · simpa [eraseItem, List.filter_cons, h, lookupItem] using ih

theorem lookupItem_eraseItem_ne (k k' : Int) (items : List (Int × CachedItem))
    (h : k' ≠ k) : lookupItem k' (eraseItem k items) = lookupItem k' items := by
  induction items with
  | nil => rfl
  | cons p rest ih =>
    rcases p with ⟨pk, pv⟩
    by_cases hp : pk = k
    · have hne : ¬ k = k' := by omega
      simpa [eraseItem, List.filter_cons, hp, lookupItem, hne] using ih
    · by_cases hk' : pk = k'
      · have hne : ¬ k' = k := h
        simp [eraseItem, List.filter_cons, hp, lookupItem, hk', hne]
      · simpa [eraseItem, List.filter_cons, hp, lookupItem, hk'] using ih

theorem lookupItem_cacheSet (c : TopWinnersCache) (limit : Int) (ws : List Winner)
    (now k : Int) :
    lookupItem k (cacheSet c limit ws now).items =
      if limit = k then some ⟨ws, now + c.ttl⟩ else lookupItem k c.items := by
  by_cases h : limit = k
  · simp [cacheSet, lookupItem, h]
  · simp [cacheSet, lookupItem, h]
    rw [lookupItem_eraseItem_ne]
    omega

/-! ## Claim C4: cache Get/Set and TTL behaviour -/

/-- Claim C4 counterexample.  The claim states that with TTL = 0 every Get
misses, and that a Get at an instant now with now greater or equal to the
stored expiresAt returns found=false and evicts the entry.  The code uses
time.Now().After(expiresAt), a STRICT comparison: with TTL 0, a Set at
instant 5 stores expiresAt = 5, and a Get of the same limit at instant 5
finds now greater or equal to expiresAt (5 = 5) yet returns the entry with
found=true, leaving it in the map. -/
theorem c4_counterexample :
    (newCache 0).ttl = 0 ∧
    lookupItem 10 (cacheSet (newCache 0) 10 [⟨1, [65], 5, 0⟩] 5).items =
      some ⟨[⟨1, [65], 5, 0⟩], 5⟩ ∧
    (cacheGet (cacheSet (newCache 0) 10 [⟨1, [65], 5, 0⟩] 5) 10 5).1 =
      some [⟨1, [65], 5, 0⟩] ∧
    lookupItem 10 ((cacheGet (cacheSet (newCache 0) 10 [⟨1, [65], 5, 0⟩] 5) 10 5).2).items ≠
      none := by
  decide

/-- Claim C4, amended: a Get at an instant STRICTLY after the stored
expiresAt returns found=false and evicts the entry from the structure; with
TTL = 0, every Get performed strictly after the Set misses (and evicts).  A
Get at exactly the expiry instant still hits, since the code uses the strict
time.Now().After(expiresAt). -/
theorem c4_amended (c : TopWinnersCache) (limit now : Int) (it : CachedItem)
    (ws : List Winner) (t : Int) :
    (lookupItem limit c.items = some it → it.expiresAt < now →
      cacheGet c limit now = (none, { c with items := eraseItem limit c.items }) ∧
      lookupItem limit (cacheGet c limit now).2.items = none) ∧
    (c.ttl = 0 → t < now →
      (cacheGet (cacheSet c limit ws t) limit now).1 = none ∧
      lookupItem limit (cacheGet (cacheSet c limit ws t) limit now).2.items = none) := by
  constructor
  · intro hl he
    have hg : cacheGet c limit now = (none, { c with items := eraseItem limit c.items }) := by
      simp [cacheGet, hl, he]
    exact ⟨hg, by rw [hg]; exact lookupItem_eraseItem limit c.items⟩
  · intro httl hlt
    have hl : lookupItem limit (cacheSet c limit ws t).items = some ⟨ws, t + c.ttl⟩ := by
      simpa using lookupItem_cacheSet c limit ws t limit
    have he : (⟨ws, t + c.ttl⟩ : CachedItem).expiresAt < now := by
      simp [httl]; omega
    have hg : cacheGet (cacheSet c limit ws t) limit now =
        (none, { cacheSet c limit ws t with
                   items := eraseItem limit (cacheSet c limit ws t).items }) := by
      simp [cacheGet, hl, he]
    rw [hg]
    exact ⟨rfl, lookupItem_eraseItem limit _⟩

/-- Witness for c4_amended at concrete inputs: a cache with TTL 0 holding an
entry for limit 10 that expired at instant 3, queried at instant 7. -/
theorem c4_amended_witness :
    cacheGet ⟨[(10, ⟨[], 3⟩)], 0⟩ 10 7 = (none, ⟨[], 0⟩) ∧
    lookupItem 10 (cacheGet ⟨[(10, ⟨[], 3⟩)], 0⟩ 10 7).2.items = none ∧
    (cacheGet (cacheSet ⟨[], 0⟩ 10 [] 2) 10 7).1 = none ∧
    lookupItem 10 (cacheGet (cacheSet ⟨[], 0⟩ 10 [] 2) 10 7).2.items = none := by
  have h1 := (c4_amended ⟨[(10, ⟨[], 3⟩)], 0⟩ 10 7 ⟨[], 3⟩ [] 2).1 (by decide) (by decide)
  have h2 := (c4_amended ⟨[], 0⟩ 10 7 ⟨[], 3⟩ [] 2).2 (by decide) (by decide)
  refine ⟨?_, h1.2, h2.1, h2.2⟩
  rw [h1.1]
  decide

/-! ## UTF-8 and whitespace (Go strings and unicode packages), needed for the
name handling claims C3, C8, C9 -/

/-- White_Space runes recognised by unicode.IsSpace. -/
def isSpaceRune (r : Nat) : Bool :=
  r = 9 || r = 10 || r = 11 || r = 12 || r = 13 || r = 32 ||
  r = 133 || r = 160 || r = 5760 || (8192 ≤ r && r ≤ 8202) ||
  r = 8232 || r = 8233 || r = 8239 || r = 8287 || r = 12288

/-- UTF-8 encoding of a rune as Go's string(r) produces it (runes that are
surrogates or out of range are replaced by the replacement rune by Go; the
claims only exercise scalar values, so the plain four-range encoder is
used). -/
def utf8Encode (r : Nat) : List Nat :=
  if r < 128 then [r]
  else if r < 2048 then [192 + r / 64, 128 + r % 64]
  else if r < 65536 then [224 + r / 4096, 128 + (r / 64) % 64, 128 + r % 64]
  else [240 + r / 262144, 128 + (r / 4096) % 64, 128 + (r / 64) % 64, 128 + r % 64]

/-- Continuation byte test (0x80 to 0xBF). -/
def isContByte (b : Nat) : Bool := 128 ≤ b && b < 192

/-- RuneStart of package utf8: any byte that is not a continuation byte. -/
def runeStartB (b : Nat) : Bool := b < 128 || 192 ≤ b

/-- DecodeRune on the front of a byte list: returns the rune and the number
of bytes consumed; invalid sequences give the replacement rune 65533 with
size 1, following the accept ranges of Go's utf8.DecodeRune (0xE0 requires a
second byte in A0..BF, 0xED in 80..9F, 0xF0 in 90..BF, 0xF4 in 80..8F). -/
def utf8DecodeFirst : List Nat → Nat × Nat
  | [] => (65533, 0)
  | b0 :: rest =>
    if b0 < 128 then (b0, 1)
    else if b0 < 194 then (65533, 1)
    else if b0 < 224 then
      match rest with
      | b1 :: _ =>
        if isContByte b1 then ((b0 - 192) * 64 + (b1 - 128), 2) else (65533, 1)
      | [] => (65533, 1)
    else if b0 < 240 then
      match rest with
      | b1 :: b2 :: _ =>
        if (if b0 = 224 then 160 else 128) ≤ b1 &&
           b1 < (if b0 = 237 then 160 else 192) && isContByte b2 then
          ((b0 - 224) * 4096 + (b1 - 128) * 64 + (b2 - 128), 3)
        else (65533, 1)
      | _ => (65533, 1)
    else if b0 < 245 then
      match rest with
      | b1 :: b2 :: b3 :: _ =>
        if (if b0 = 240 then 144 else 128) ≤ b1 &&
           b1 < (if b0 = 244 then 144 else 192) && isContByte b2 && isContByte b3 then
          ((b0 - 240) * 262144 + (b1 - 128) * 4096 + (b2 - 128) * 64 + (b3 - 128), 4)
        else (65533, 1)
      | _ => (65533, 1)
    else (65533, 1)

/-- DecodeLastRune of package utf8: an ASCII final byte is itself; otherwise
search back at most three more bytes for a rune start; decoding succeeds only
when the started rune spans exactly the scanned suffix. -/
def utf8DecodeLast (l : List Nat) : Nat × Nat :=
  match l with
  | [] => (65533, 0)
  | _ :: _ =>
    let n := l.length
    let b := l.getD (n - 1) 0
    if b < 128 then (b, 1)
    else
      let cand : Option Nat :=
        if 2 ≤ n ∧ runeStartB (l.getD (n - 2) 0) then some (n - 2)
        else if 3 ≤ n ∧ runeStartB (l.getD (n - 3) 0) then some (n - 3)
        else if 4 ≤ n ∧ runeStartB (l.getD (n - 4) 0) then some (n - 4)
        else none
      match cand with
      | none => (65533, 1)
      | some j =>
        let d := utf8DecodeFirst (l.drop j)
        if d.2 = n - j then d else (65533, 1)

/-- Leading-whitespace trimming of strings.TrimSpace, decoding runes from the
front; the fuel (instantiated with the byte length) bounds the iteration
count while each step consumes at least one byte, so it never runs out. -/
def trimLeftF : Nat → List Nat → List Nat
  | 0, l => l
  | _ + 1, [] => []
  | fuel + 1, b :: rest =>
    let d := utf8DecodeFirst (b :: rest)
    if isSpaceRune d.1 then trimLeftF fuel ((b :: rest).drop d.2) else b :: rest

/-- Trailing-whitespace trimming of strings.TrimSpace, decoding runes from
the back. -/
def trimRightF : Nat → List Nat → List Nat
  | 0, l => l
  | _ + 1, [] => []
  | fuel + 1, b :: rest =>
    let d := utf8DecodeLast (b :: rest)
    if isSpaceRune d.1 then
      trimRightF fuel ((b :: rest).take ((b :: rest).length - d.2))
    else b :: rest

/-- strings.TrimSpace on a Go string (byte list): trim the front, then the
back. -/
def trimSpace (l : List Nat) : List Nat :=
  trimRightF (trimLeftF l.length l).length (trimLeftF l.length l)

/-- Default name substituted by the game layer: "PLAYER". -/
def playerName : List Nat := [80, 76, 65, 89, 69, 82]

/-! ## LeaderboardStore, js/wasm build (internal/storage/webstorage.go) -/

/-- WebStore models the js build: the winners list stored in localStorage
under dimalimbo_winners (JSON decoding of well-formed data is the identity,
a missing or unparsable value decodes to the empty list, so an arbitrary
stored list covers all cases), plus the injected cache. -/
structure WebStore where
  raw : List Winner
  cache : TopWinnersCache
deriving DecidableEq

/-- Inner loop of the webstorage sort, for a fixed outer index i: x is the
current value of winners[i], the list argument is winners[i+1..]; whenever a
later element has strictly greater score the code swaps it with position i.
The function returns the final value at position i together with the final
contents of positions i+1 onward. -/
def exchInner (x : Winner) : List Winner → Winner × List Winner
  | [] => (x, [])
  | y :: ys =>
    if x.score < y.score then
      let p := exchInner y ys
      (p.1, x :: p.2)
    else
      let p := exchInner x ys
      (p.1, y :: p.2)

theorem exchInner_length (x : Winner) (ys : List Winner) :
    (exchInner x ys).2.length = ys.length := by
  induction ys generalizing x with
  | nil => rfl
  | cons y ys ih =>
    by_cases h : x.score < y.score <;> simp [exchInner, h, ih]

/-- Fuel-indexed outer loop of the webstorage sort; the fuel is the number of
remaining outer iterations, always instantiated with the list length, which
exchInner preserves, so the fuel never runs out.  Structural recursion keeps
the definition computable by the kernel. -/
def exchSortF : Nat → List Winner → List Winner
  | 0, l => l
  | _ + 1, [] => []
  | fuel + 1, x :: xs =>
    let p := exchInner x xs
    p.1 :: exchSortF fuel p.2

/-- Full nested-loop sort of webstorage.go lines 42-48 (sort by score
descending, strict-greater swaps only). -/
def exchSort (l : List Winner) : List Winner := exchSortF l.length l

theorem exchInner_perm (x : Winner) (ys : List Winner) :
    List.Perm ((exchInner x ys).1 :: (exchInner x ys).2) (x :: ys) := by
  induction ys generalizing x with
  | nil => simp [exchInner]
  | cons y ys ih =>
    by_cases h : x.score < y.score
    · rw [show exchInner x (y :: ys) = ((exchInner y ys).1, x :: (exchInner y ys).2) from by
        simp [exchInner, h]]
      exact (List.Perm.swap x (exchInner y ys).1 (exchInner y ys).2).trans
        (List.Perm.cons x (ih y))
    · rw [show exchInner x (y :: ys) = ((exchInner x ys).1, y :: (exchInner x ys).2) from by
        simp [exchInner, h]]
      exact (List.Perm.swap y (exchInner x ys).1 (exchInner x ys).2).trans
        ((List.Perm.cons y (ih x)).trans (List.Perm.swap x y ys))

theorem exchInner_carry_le (x : Winner) (ys : List Winner) :
    x.score ≤ (exchInner x ys).1.score := by
  induction ys generalizing x with
  | nil => simp [exchInner]
  | cons y ys ih =>
    by_cases h : x.score < y.score
    · simp only [exchInner, h, if_pos]
      exact le_of_lt (lt_of_lt_of_le h (ih y))
    · simp only [exchInner, h, if_neg, not_false_iff]
      exact ih x

theorem exchInner_max (x : Winner) (ys : List Winner) :
    ∀ z ∈ (exchInner x ys).2, z.score ≤ (exchInner x ys).1.score := by
  induction ys generalizing x with
  | nil => simp [exchInner]
  | cons y ys ih =>
    by_cases h : x.score < y.score
    · simp only [exchInner, h, if_pos, List.mem_cons]
      rintro z (rfl | hz)
      · exact le_of_lt (lt_of_lt_of_le h (exchInner_carry_le y ys))
      · exact ih y z hz
    · simp only [exchInner, h, if_neg, not_false_iff, List.mem_cons]
      rintro z (rfl | hz)
      · exact le_trans (le_of_not_lt h) (exchInner_carry_le x ys)
      · exact ih x z hz

/-- Sorted by score descending (adjacent-free Pairwise form). -/
def scoreDescSorted (l : List Winner) : Prop :=
  List.Pairwise (fun a b => b.score ≤ a.score) l

/-- Sorted by score descending with ties by id ascending. -/
def lexSorted (l : List Winner) : Prop := List.Sorted rLex l

theorem exchSort_cons (x : Winner) (xs : List Winner) :
    exchSort (x :: xs) = (exchInner x xs).1 :: exchSort (exchInner x xs).2 := by
  show (exchInner x xs).1 :: exchSortF xs.length (exchInner x xs).2 =
    (exchInner x xs).1 :: exchSortF (exchInner x xs).2.length (exchInner x xs).2
  rw [exchInner_length]

theorem exchSort_perm (l : List Winner) : List.Perm (exchSort l) l := by
  have key : ∀ n (l : List Winner), l.length ≤ n → List.Perm (exchSort l) l := by
    intro n
    induction n with
    | zero =>
      intro l hl
      rw [List.length_eq_zero.mp (Nat.le_zero.mp hl)]
      simp [exchSort, exchSortF]
    | succ n ih =>
      intro l hl
      cases l with
      | nil => simp [exchSort, exchSortF]
      | cons x xs =>
        rw [exchSort_cons]
        have hlen : (exchInner x xs).2.length ≤ n := by
          rw [exchInner_length]
          simpa using Nat.le_of_succ_le_succ hl
        exact (List.Perm.cons (exchInner x xs).1 (ih _ hlen)).trans (exchInner_perm x xs)
  exact key l.length l le_rfl

theorem exchSort_sorted (l : List Winner) : scoreDescSorted (exchSort l) := by
  have key : ∀ n (l : List Winner), l.length ≤ n → scoreDescSorted (exchSort l) := by
    intro n
    induction n with
    | zero =>
      intro l hl
      rw [List.length_eq_zero.mp (Nat.le_zero.mp hl)]
      simp [exchSort, exchSortF, scoreDescSorted]
    | succ n ih =>
      intro l hl
      cases l with
      | nil => simp [exchSort, exchSortF, scoreDescSorted]
      | cons x xs =>
        rw [exchSort_cons]
        have hlen : (exchInner x xs).2.length ≤ n := by
          rw [exchInner_length]
          simpa using Nat.le_of_succ_le_succ hl
        refine List.pairwise_cons.mpr ⟨?_, ih _ hlen⟩
        intro z hz
        have hz2 : z ∈ (exchInner x xs).2 :=
          (exchSort_perm (exchInner x xs).2).mem_iff.mp hz
        exact exchInner_max x xs z hz2
  exact key l.length l le_rfl

/-- TopWinners of the js build: cache check, then read and decode
localStorage, the nested-loop sort by score descending, truncation when the
list is longer than the (adjusted) limit, cache population.  The js build
never returns an error. -/
def webOut (raw : List Winner) (limit : Int) : List Winner :=
  if adjLimit limit < ((exchSort raw).length : Int) then
    (exchSort raw).take (adjLimit limit).toNat
  else exchSort raw

def topWinnersWeb (st : WebStore) (limit now : Int) : List Winner × WebStore :=
  match cacheGet st.cache (adjLimit limit) now with
  | (some ws, c') => (ws, { st with cache := c' })
  | (none, c') =>
    (webOut st.raw limit,
      { st with cache := cacheSet c' (adjLimit limit) (webOut st.raw limit) now })

/-- SaveWinner of the js build: read the current top 1000 (a cache-mutating
call), append the new entry (id and createdAt from time.Now().UnixNano,
modelled by now), write the whole list back to localStorage, invalidate the
cache.  No validation is performed on the name. -/
def saveWinnerWeb (st : WebStore) (name : List Nat) (score now : Int) : WebStore :=
  let r := topWinnersWeb st 1000 now
  { raw := r.1 ++ [⟨now, name, score, now⟩], cache := invalidateAll r.2.cache }

/-- Reset of the js build: remove the stored key and invalidate. -/
def resetStoreWeb (st : WebStore) : WebStore :=
  { raw := [], cache := invalidateAll st.cache }

/-! ## Cache well-formedness machinery -/

/-- Predicate saying every entry of an items map satisfies Q of its key and
value. -/
def itemsOK (Q : Int → CachedItem → Prop) (items : List (Int × CachedItem)) : Prop :=
  ∀ k it, lookupItem k items = some it → Q k it

theorem itemsOK_erase (Q : Int → CachedItem → Prop) (k : Int)
    (items : List (Int × CachedItem)) (h : itemsOK Q items) :
    itemsOK Q (eraseItem k items) := by
  intro k' it hl
  by_cases hk : k' = k
  · rw [hk, lookupItem_eraseItem] at hl
    exact absurd hl (by simp)
  · rw [lookupItem_eraseItem_ne k k' items hk] at hl
    exact h k' it hl

theorem itemsOK_cacheSet (Q : Int → CachedItem → Prop) (c : TopWinnersCache)
    (limit : Int) (ws : List Winner) (now : Int)
    (h : itemsOK Q c.items) (hq : Q limit ⟨ws, now + c.ttl⟩) :
    itemsOK Q (cacheSet c limit ws now).items := by
  intro k it hl
  rw [lookupItem_cacheSet] at hl
  by_cases hk : limit = k
  · rw [if_pos hk] at hl
    cases hl
    exact hk ▸ hq
  · rw [if_neg hk] at hl
    exact h k it hl

theorem itemsOK_cacheGet (Q : Int → CachedItem → Prop) (c : TopWinnersCache)
    (limit now : Int) (h : itemsOK Q c.items) :
    itemsOK Q (cacheGet c limit now).2.items := by
  unfold cacheGet
  cases hl : lookupItem limit c.items with
  | none => exact h
  | some it =>
    by_cases he : it.expiresAt < now
    · simpa [he] using itemsOK_erase Q limit c.items h
    · simpa [he] using h

/-- Well-formedness used for claim C2, sqlite build: every cached value is
lex-sorted and no longer than its key. -/
def cacheWF (c : TopWinnersCache) : Prop :=
  itemsOK (fun k it => lexSorted it.winners ∧ it.winners.length ≤ k.toNat) c.items

/-- Well-formedness used for claim C2, js build: every cached value is
score-sorted and no longer than its key. -/
def webCacheWF (c : TopWinnersCache) : Prop :=
  itemsOK (fun k it => scoreDescSorted it.winners ∧ it.winners.length ≤ k.toNat) c.items

/-- Cache agreement with a winners table, used for claim C1: every cached
value is exactly the top-k of the current table. -/
def cacheMatches (ws : List Winner) (c : TopWinnersCache) : Prop :=
  itemsOK (fun k it => it.winners = (sortWinners ws).take k.toNat) c.items

theorem itemsOK_nil (Q : Int → CachedItem → Prop) : itemsOK Q [] := by
  intro k it h
  simp [lookupItem] at h

theorem sortWinners_sorted (l : List Winner) : lexSorted (sortWinners l) :=
  List.sorted_insertionSort rLex l

theorem sortWinners_perm (l : List Winner) : List.Perm (sortWinners l) l :=
  List.perm_insertionSort rLex l

theorem lexSorted_take (l : List Winner) (n : Nat) (h : lexSorted l) :
    lexSorted (l.take n) :=
  List.Pairwise.sublist (List.take_sublist n l) h

theorem scoreDescSorted_take (l : List Winner) (n : Nat) (h : scoreDescSorted l) :
    scoreDescSorted (l.take n) :=
  List.Pairwise.sublist (List.take_sublist n l) h

/-! ## Claim C2: shape of every TopWinners result -/

theorem cacheGet_hit (c : TopWinnersCache) (k now : Int) (ws : List Winner)
    (c2 : TopWinnersCache) (h : cacheGet c k now = (some ws, c2)) :
    ∃ it, lookupItem k c.items = some it ∧ it.winners = ws ∧ c2 = c := by
  unfold cacheGet at h
  cases hl : lookupItem k c.items with
  | none =>
    rw [hl] at h
    simp at h
  | some it =>
    rw [hl] at h
    by_cases he : it.expiresAt < now
    · simp [he] at h
    · simp [he] at h
      exact ⟨it, rfl, h.1, h.2.symm⟩

theorem webOut_sorted (raw : List Winner) (limit : Int) :
    scoreDescSorted (webOut raw limit) := by
  unfold webOut
  split
  · exact scoreDescSorted_take _ _ (exchSort_sorted raw)
  · exact exchSort_sorted raw

theorem webOut_length (raw : List Winner) (limit : Int) :
    (webOut raw limit).length ≤ (adjLimit limit).toNat := by
  have hadj : (1 : Int) ≤ adjLimit limit := by unfold adjLimit; split <;> omega
  unfold webOut
  split
  · rw [List.length_take]; exact Nat.min_le_left _ _
  · rename_i hlong
    have hle : ((exchSort raw).length : Int) ≤ adjLimit limit := not_lt.mp hlong
    omega

/-- Sqlite TopWinners with a well-formed cache always returns a lex-sorted
list of length at most the adjusted limit and keeps the cache well formed. -/
theorem topWinners_wf (s : Storage) (limit now : Int) (out : List Winner)
    (s2 : Storage) (hwf : cacheWF s.cache)
    (h : topWinners s limit now true = (.ok out, s2)) :
    lexSorted out ∧ out.length ≤ (adjLimit limit).toNat ∧ cacheWF s2.cache := by
  rcases hc : cacheGet s.cache (adjLimit limit) now with ⟨r, c'⟩
  cases r with
  | some ws =>
    have heq : topWinners s limit now true = (.ok ws, { s with cache := c' }) := by
      rw [topWinners, hc]
    rw [heq] at h
    have hout : ws = out := by
      have := congrArg Prod.fst h
      simpa using this
    have hs2 : s2 = { s with cache := c' } := by
      have := congrArg Prod.snd h
      simpa using this.symm
    obtain ⟨it, hl, hws, hcc⟩ := cacheGet_hit s.cache (adjLimit limit) now ws c' hc
    have hq := hwf (adjLimit limit) it hl
    refine ⟨?_, ?_, ?_⟩
    · rw [← hout, ← hws]; exact hq.1
    · rw [← hout, ← hws]; exact hq.2
    · rw [hs2]; simpa [hcc] using hwf
  | none =>
    have heq : topWinners s limit now true =
        (.ok ((sortWinners s.winners).take (adjLimit limit).toNat),
         { s with cache := (cacheSet c' (adjLimit limit) ((sortWinners s.winners).take (adjLimit limit).toNat) now) }) := by
      rw [topWinners, hc]
      rfl
    rw [heq] at h
    have hout : (sortWinners s.winners).take (adjLimit limit).toNat = out := by
      have := congrArg Prod.fst h
      simpa using this
    have hs2 : s2 = { s with cache := (cacheSet c' (adjLimit limit) ((sortWinners s.winners).take (adjLimit limit).toNat) now) } := by
      have := congrArg Prod.snd h
      simpa using this.symm
    have hc' : cacheWF c' := by
      have hpres := itemsOK_cacheGet
        (fun k it => lexSorted it.winners ∧ it.winners.length ≤ k.toNat)
        s.cache (adjLimit limit) now hwf
      rw [hc] at hpres
      exact hpres
    refine ⟨?_, ?_, ?_⟩
    · rw [← hout]; exact lexSorted_take _ _ (sortWinners_sorted s.winners)
    · rw [← hout, List.length_take]; exact Nat.min_le_left _ _
    · rw [hs2]
      refine itemsOK_cacheSet _ c' (adjLimit limit) _ now hc'
        ⟨lexSorted_take _ _ (sortWinners_sorted s.winners), ?_⟩
      rw [List.length_take]; exact Nat.min_le_left _ _

/-- Web TopWinners with a well-formed cache always returns a score-sorted
list of length at most the adjusted limit and keeps the cache well formed. -/
theorem topWinnersWeb_wf (st : WebStore) (limit now : Int) (hwf : webCacheWF st.cache) :
    scoreDescSorted (topWinnersWeb st limit now).1 ∧
    (topWinnersWeb st limit now).1.length ≤ (adjLimit limit).toNat ∧
    webCacheWF (topWinnersWeb st limit now).2.cache := by
  rcases hc : cacheGet st.cache (adjLimit limit) now with ⟨r, c'⟩
  cases r with
  | some ws =>
    have heq : topWinnersWeb st limit now = (ws, { st with cache := c' }) := by
      rw [topWinnersWeb, hc]
    rw [heq]
    obtain ⟨it, hl, hws, hcc⟩ := cacheGet_hit st.cache (adjLimit limit) now ws c' hc
    have hq := hwf (adjLimit limit) it hl
    exact ⟨by rw [← hws]; exact hq.1, by rw [← hws]; exact hq.2,
      by simpa [hcc] using hwf⟩
  | none =>
    have heq : topWinnersWeb st limit now =
        (webOut st.raw limit,
         { st with cache := (cacheSet c' (adjLimit limit) (webOut st.raw limit) now) }) := by
      rw [topWinnersWeb, hc]
    rw [heq]
    have hc' : webCacheWF c' := by
      have hpres := itemsOK_cacheGet
        (fun k it => scoreDescSorted it.winners ∧ it.winners.length ≤ k.toNat)
        st.cache (adjLimit limit) now hwf
      rw [hc] at hpres
      exact hpres
    exact ⟨webOut_sorted st.raw limit, webOut_length st.raw limit,
      itemsOK_cacheSet _ c' (adjLimit limit) _ now hc'
        ⟨webOut_sorted st.raw limit, webOut_length st.raw limit⟩⟩

instance : DecidablePred lexSorted := fun l => by
  unfold lexSorted List.Sorted; infer_instance

instance : DecidablePred scoreDescSorted := fun l => by
  unfold scoreDescSorted; infer_instance

/-- Claim C2 counterexample.  The claim asserts that TopWinners always
returns a list sorted by score descending WITH TIES BROKEN BY ID ASCENDING.
The js/localStorage build's nested-loop sort orders by score only and is not
stable: on the stored contents with (id, score) pairs (1,5), (2,6), (3,5),
(4,7) and limit 10 it returns ids 4, 2, 3, 1 - the two score-5 entries come
back with id 3 BEFORE id 1, so the result is not sorted by (score desc,
id asc). -/
theorem c2_counterexample :
    (topWinnersWeb ⟨[⟨1, [], 5, 0⟩, ⟨2, [], 6, 0⟩, ⟨3, [], 5, 0⟩, ⟨4, [], 7, 0⟩],
        newCache 30⟩ 10 0).1 =
      [⟨4, [], 7, 0⟩, ⟨2, [], 6, 0⟩, ⟨3, [], 5, 0⟩, ⟨1, [], 5, 0⟩] ∧
    ¬ lexSorted [⟨4, [], 7, 0⟩, ⟨2, [], 6, 0⟩, ⟨3, [], 5, 0⟩, ⟨1, [], 5, 0⟩] := by
  constructor
  · rfl
  · decide

/-- Claim C2, amended: for every store contents and limit, TopWinners
returns a list sorted by score descending, of length at most the limit,
treating a nonpositive limit as 10; the sqlite build additionally breaks
ties by id ascending, but the web build's sort does not order ties by id.
The well-formed-cache hypotheses are established for the initial empty cache
and preserved by every operation (last two conjuncts). -/
theorem c2_amended :
    (∀ (s : Storage) (limit now : Int) (out : List Winner) (s2 : Storage),
      cacheWF s.cache → topWinners s limit now true = (.ok out, s2) →
        lexSorted out ∧ out.length ≤ (adjLimit limit).toNat ∧ cacheWF s2.cache) ∧
    (∀ (st : WebStore) (limit now : Int), webCacheWF st.cache →
        scoreDescSorted (topWinnersWeb st limit now).1 ∧
        (topWinnersWeb st limit now).1.length ≤ (adjLimit limit).toNat ∧
        webCacheWF (topWinnersWeb st limit now).2.cache) ∧
    (∀ (s : Storage) (limit now : Int) (q : Bool), limit ≤ 0 →
        topWinners s limit now q = topWinners s 10 now q) ∧
    (∀ (st : WebStore) (limit now : Int), limit ≤ 0 →
        topWinnersWeb st limit now = topWinnersWeb st 10 now) ∧
    (∀ ttl : Int, cacheWF (newCache ttl) ∧ webCacheWF (newCache ttl)) ∧
    (∀ (s : Storage) (name : List Nat) (score now : Int) (s3 : Storage),
        saveWinner s name score now true = .ok s3 → cacheWF s3.cache) := by
  refine ⟨topWinners_wf, topWinnersWeb_wf, ?_, ?_, ?_, ?_⟩
  · intro s limit now q h
    have hadj : adjLimit limit = adjLimit 10 := by unfold adjLimit; simp [h]
    unfold topWinners
    rw [hadj]
  · intro st limit now h
    have hadj : adjLimit limit = adjLimit 10 := by unfold adjLimit; simp [h]
    unfold topWinnersWeb webOut
    rw [hadj]
  · intro ttl
    exact ⟨itemsOK_nil _, itemsOK_nil _⟩
  · intro s name score now s3 h
    unfold saveWinner at h
    by_cases hn : name = []
    · rw [if_pos hn] at h
      simp at h
    · rw [if_neg hn] at h
      simp at h
      rw [← h]
      exact itemsOK_nil _

/-- Witness for c2_amended: the sqlite branch on an empty store with empty
cache at limit 3, the web branch on an empty store at limit 5, the
nonpositive-limit branches at limit -2, and a save on a nonempty name. -/
theorem c2_amended_witness :
    (lexSorted ((sortWinners ([] : List Winner)).take (adjLimit 3).toNat) ∧
      ((sortWinners ([] : List Winner)).take (adjLimit 3).toNat).length ≤ (adjLimit 3).toNat ∧
      cacheWF (topWinners ⟨[], 1, newCache 30⟩ 3 0 true).2.cache) ∧
    (scoreDescSorted (topWinnersWeb ⟨[], newCache 30⟩ 5 0).1 ∧
      (topWinnersWeb ⟨[], newCache 30⟩ 5 0).1.length ≤ (adjLimit 5).toNat ∧
      webCacheWF (topWinnersWeb ⟨[], newCache 30⟩ 5 0).2.cache) ∧
    topWinners ⟨[], 1, newCache 30⟩ (-2) 0 true = topWinners ⟨[], 1, newCache 30⟩ 10 0 true ∧
    topWinnersWeb ⟨[], newCache 30⟩ (-2) 0 = topWinnersWeb ⟨[], newCache 30⟩ 10 0 ∧
    cacheWF (⟨[⟨1, [65], 5, 0⟩], 2, newCache 30⟩ : Storage).cache ∧
    cacheWF (invalidateAll (newCache 30)) := by
  have hwf : cacheWF (newCache 30) := (c2_amended.2.2.2.2.1 30).1
  have hwfw : webCacheWF (newCache 30) := (c2_amended.2.2.2.2.1 30).2
  have h1 := c2_amended.1 ⟨[], 1, newCache 30⟩ 3 0
    ((sortWinners ([] : List Winner)).take (adjLimit 3).toNat)
    (topWinners ⟨[], 1, newCache 30⟩ 3 0 true).2 hwf (by rfl)
  have h2 := c2_amended.2.1 ⟨[], newCache 30⟩ 5 0 hwfw
  have h3 := c2_amended.2.2.1 ⟨[], 1, newCache 30⟩ (-2) 0 true (by decide)
  have h4 := c2_amended.2.2.2.1 ⟨[], newCache 30⟩ (-2) 0 (by decide)
  have h5 := c2_amended.2.2.2.2.2 ⟨[], 1, newCache 30⟩ [65] 5 0
    ⟨[⟨1, [65], 5, 0⟩], 2, invalidateAll (newCache 30)⟩ (by rfl)
  exact ⟨h1, h2, h3, h4, h5, h5⟩

/-! ## Claim C3: SaveWinner validation of empty names -/

/-- Claim C3 counterexample.  The claim says SaveWinner errors and stores
nothing for EVERY name that is empty after trimming whitespace.  The sqlite
code checks name == "" with no trimming, so the one-byte name " " (byte 32),
which trims to the empty string, is accepted and a row is appended. -/
theorem c3_counterexample :
    trimSpace [32] = [] ∧
    saveWinner ⟨[], 1, newCache 30⟩ [32] 5 0 true =
      .ok ⟨[⟨1, [32], 5, 0⟩], 2, newCache 30⟩ := by
  constructor
  · rfl
  · rfl

/-- Claim C3, amended: the sqlite SaveWinner rejects exactly the empty
string, leaving the store unchanged (it returns before the INSERT), while
every nonempty name - including whitespace-only ones - is inserted when the
driver succeeds; the web build performs no validation at all and appends an
entry even for the empty name. -/
theorem c3_amended :
    (∀ (s : Storage) (score now : Int) (execOk : Bool),
        saveWinner s [] score now execOk = .error [110, 97, 109, 101]) ∧
    (∀ (s : Storage) (name : List Nat) (score now : Int), name ≠ [] →
        saveWinner s name score now true =
          .ok ⟨s.winners ++ [⟨s.nextId, name, score, now⟩], s.nextId + 1,
               invalidateAll s.cache⟩) ∧
    (∀ (st : WebStore) (score now : Int),
        (⟨now, [], score, now⟩ : Winner) ∈ (saveWinnerWeb st [] score now).raw) := by
  refine ⟨?_, ?_, ?_⟩
  · intro s score now execOk
    simp [saveWinner]
  · intro s name score now h
    simp [saveWinner, h]
  · intro st score now
    unfold saveWinnerWeb
    simp

/-- Witness for c3_amended at concrete inputs. -/
theorem c3_amended_witness :
    saveWinner ⟨[], 1, newCache 30⟩ [] 5 0 true = .error [110, 97, 109, 101] ∧
    saveWinner ⟨[], 1, newCache 30⟩ [32] 7 0 true =
      .ok ⟨[⟨1, [32], 7, 0⟩], 2, invalidateAll (newCache 30)⟩ ∧
    (⟨0, [], 5, 0⟩ : Winner) ∈ (saveWinnerWeb ⟨[], newCache 30⟩ [] 5 0).raw := by
  refine ⟨c3_amended.1 ⟨[], 1, newCache 30⟩ 5 0 true, ?_,
    c3_amended.2.2 ⟨[], newCache 30⟩ 5 0⟩
  have h := c3_amended.2.1 ⟨[], 1, newCache 30⟩ [32] 7 0 (by decide)
  simpa using h


/-! ## Claim C1: no stale reads after SaveWinner -/

/-- Index of the first occurrence of a winner in a list. -/
def idxOfW (w : Winner) : List Winner → Nat
  | [] => 0
  | x :: xs => if x = w then 0 else idxOfW w xs + 1

theorem mem_take_of_idxOfW (w : Winner) (l : List Winner) (n : Nat)
    (hmem : w ∈ l) (hidx : idxOfW w l < n) : w ∈ l.take n := by
  induction l generalizing n with
  | nil => cases hmem
  | cons x xs ih =>
    by_cases hx : x = w
    · subst hx
      cases n with
      | zero => simp [idxOfW] at hidx
      | succ m => simp [List.take_cons]
    · have hidx' : idxOfW w xs + 1 < n := by simpa [idxOfW, hx] using hidx
      cases n with
      | zero => omega
      | succ m =>
        have hmem' : w ∈ xs := by
          rcases List.mem_cons.mp hmem with h | h
          · exact absurd h.symm hx
          · exact h
        have := ih (n := m) hmem' (by omega)
        simp [List.take_cons, this]

/-- Answer of the SELECT path for a given table and limit. -/
def topList (s : Storage) (limit : Int) : List Winner :=
  (sortWinners s.winners).take (adjLimit limit).toNat

/-- TopWinners on a storage whose cache agrees with the table answers from
the current table, leaves the table unchanged, and keeps the agreement. -/
theorem topWinners_matches (s : Storage) (limit now : Int)
    (h : cacheMatches s.winners s.cache) :
    (topWinners s limit now true).1 = .ok (topList s limit) ∧
    (topWinners s limit now true).2.winners = s.winners ∧
    cacheMatches s.winners (topWinners s limit now true).2.cache := by
  rcases hc : cacheGet s.cache (adjLimit limit) now with ⟨r, c'⟩
  cases r with
  | some ws =>
    have heq : topWinners s limit now true = (.ok ws, { s with cache := c' }) := by
      rw [topWinners, hc]
    obtain ⟨it, hl, hws, hcc⟩ := cacheGet_hit s.cache (adjLimit limit) now ws c' hc
    have hval := h (adjLimit limit) it hl
    rw [heq]
    refine ⟨?_, rfl, ?_⟩
    · rw [← hws, hval]; rfl
    · simpa [hcc] using h
  | none =>
    have heq : topWinners s limit now true =
        (.ok ((sortWinners s.winners).take (adjLimit limit).toNat),
         { s with cache := (cacheSet c' (adjLimit limit) ((sortWinners s.winners).take (adjLimit limit).toNat) now) }) := by
      rw [topWinners, hc]
      rfl
    rw [heq]
    have hc' : cacheMatches s.winners c' := by
      have hpres := itemsOK_cacheGet
        (fun k it => it.winners = (sortWinners s.winners).take k.toNat)
        s.cache (adjLimit limit) now h
      rw [hc] at hpres
      exact hpres
    exact ⟨rfl, rfl, itemsOK_cacheSet _ c' (adjLimit limit) _ now hc' rfl⟩

/-- Sequence of TopWinners calls (limit, instant) after some state, recording
the returned lists in order; all calls have a succeeding driver. -/
def runQueries (s : Storage) : List (Int × Int) → List (List Winner)
  | [] => []
  | q :: qs =>
    match topWinners s q.1 q.2 true with
    | (.ok ws, s') => ws :: runQueries s' qs
    | (.error _, s') => [] :: runQueries s' qs

/-- Every query in a run over a cache that agrees with the table is answered
by the sorted-and-truncated current table. -/
theorem runQueries_spec (qs : List (Int × Int)) :
    ∀ (s : Storage), cacheMatches s.winners s.cache →
      ∀ i, i < qs.length →
        (runQueries s qs).getD i [] =
          (sortWinners s.winners).take (adjLimit (qs.getD i (0, 0)).1).toNat := by
  induction qs with
  | nil =>
    intro s h i hi
    simp at hi
  | cons q qs ih =>
    intro s h i hi
    obtain ⟨h1, h2, h3⟩ := topWinners_matches s q.1 q.2 h
    have heq : topWinners s q.1 q.2 true =
        (.ok (topList s q.1), (topWinners s q.1 q.2 true).2) := by
      rcases htp : topWinners s q.1 q.2 true with ⟨r, s'⟩
      rw [htp] at h1
      simp at h1
      rw [h1]
    rw [runQueries, heq]
    cases i with
    | zero => simp [topList]
    | succ i =>
      have hm : cacheMatches (topWinners s q.1 q.2 true).2.winners
          (topWinners s q.1 q.2 true).2.cache := by
        rw [h2]; exact h3
      have := ih (topWinners s q.1 q.2 true).2 hm i (by simpa using Nat.lt_of_succ_lt_succ hi)
      simpa [h2] using this

/-- Claim C1.  After a successful SaveWinner and before any later write, the
cache is empty (third conjunct), every later TopWinners call in any sequence
of reads is answered from the post-save table (first conjunct: the result at
position i is the post-save table sorted by score desc, id asc, truncated to
the adjusted limit of that call), and whenever the freshly saved entry ranks
within the first limit positions of that order the answer contains it
(fourth conjunct). -/
theorem c1_after_save (s s' : Storage) (name : List Nat) (score now : Int)
    (hsave : saveWinner s name score now true = .ok s')
    (qs : List (Int × Int)) (i : Nat) (hi : i < qs.length) :
    (runQueries s' qs).getD i [] =
      (sortWinners s'.winners).take (adjLimit (qs.getD i (0, 0)).1).toNat ∧
    s'.winners = s.winners ++ [⟨s.nextId, name, score, now⟩] ∧
    s'.cache.items = [] ∧
    (idxOfW ⟨s.nextId, name, score, now⟩ (sortWinners s'.winners) <
        (adjLimit (qs.getD i (0, 0)).1).toNat →
      ⟨s.nextId, name, score, now⟩ ∈ (runQueries s' qs).getD i []) := by
  unfold saveWinner at hsave
  by_cases hn : name = []
  · rw [if_pos hn] at hsave
    simp at hsave
  · rw [if_neg hn] at hsave
    simp at hsave
    have hs' : s' = ⟨s.winners ++ [⟨s.nextId, name, score, now⟩], s.nextId + 1,
        invalidateAll s.cache⟩ := hsave.symm
    have hmatch : cacheMatches s'.winners s'.cache := by
      rw [hs']
      exact itemsOK_nil _
    have hspec := runQueries_spec qs s' hmatch i hi
    refine ⟨hspec, by rw [hs'], by rw [hs']; rfl, fun hidx => ?_⟩
    rw [hspec]
    apply mem_take_of_idxOfW _ _ _ ?_ hidx
    apply (sortWinners_perm s'.winners).mem_iff.mpr
    rw [hs']
    simp

/-- Witness for c1_after_save: an empty store, a save of name "A" score 5,
then a single TopWinners(10) read one instant later. -/
theorem c1_after_save_witness :
    (runQueries ⟨[⟨1, [65], 5, 0⟩], 2, ⟨[], 30⟩⟩ [(10, 1)]).getD 0 [] =
      [⟨1, [65], 5, 0⟩] ∧
    (⟨1, [65], 5, 0⟩ : Winner) ∈
      (runQueries ⟨[⟨1, [65], 5, 0⟩], 2, ⟨[], 30⟩⟩ [(10, 1)]).getD 0 [] := by
  have h := c1_after_save ⟨[], 1, newCache 30⟩ ⟨[⟨1, [65], 5, 0⟩], 2, ⟨[], 30⟩⟩
    [65] 5 0 (by rfl) [(10, 1)] 0 (by decide)
  refine ⟨?_, h.2.2.2 (by decide)⟩
  rw [h.1]
  rfl

/-! ## Game session state machine (internal/game/game.go, first build variant;
screen 800x600).  The purely visual state (stars, particles, shooting stars,
satellites, shader, audio, fonts) and the one-time seeding block are omitted:
they read none of and write none of the fields below.  The movement block is
summarised by an arbitrary pre-clamp displacement (moveDx, moveDy), which
covers every combination of touch, mouse, keyboard and gamepad input the code
can apply in one tick.  The randomness of rand.Intn is supplied as arbitrary
Nat inputs reduced with the modulus the code passes to Intn.  Go integer
modulo agrees with Int.emod on the nonnegative operands every reachable tick
produces. -/

/-- Gameplay settings consumed by the modelled Update (internal/settings). -/
structure GameCfg where
  baseSpeed : Rat
  spawnEveryStart : Int
  spawnEveryMin : Int
  speedAccel : Rat
  accelIntervalFrames : Int
  topN : Int
deriving DecidableEq

/-- settings.Default gameplay values. -/
def defaultCfg : GameCfg :=
  { baseSpeed := 4, spawnEveryStart := 60, spawnEveryMin := 24,
    speedAccel := 2/5, accelIntervalFrames := 300, topN := 10 }

/-- Axis-aligned rectangle with float64 coordinates (modelled as Rat). -/
structure Rect where
  x : Rat
  y : Rat
  w : Rat
  h : Rat
deriving DecidableEq

/-- AABB overlap test of rectangle.intersects. -/
def rectIntersects (r o : Rect) : Bool :=
  decide (r.x < o.x + o.w) && decide (r.x + r.w > o.x) &&
  decide (r.y < o.y + o.h) && decide (r.y + r.h > o.y)

/-- Session states of the Game struct. -/
inductive GState where
  | title
  | playing
  | nameEntry
  | leaderboard
deriving DecidableEq

/-- Game models the fields of the Game struct the core claims are about. -/
structure GameM where
  state : GState
  storage : Storage
  player : Rect
  playerVel : Rat
  obstacles : List Rect
  score : Int
  frames : Int
  nameInput : List Nat
  leaders : List Winner
  speed : Rat
  spawnEvery : Int
deriving DecidableEq

/-- Per-tick external input: start trigger on Title; net movement
displacement while Playing; the two rand.Intn draws of spawnObstacle;
typed runes, backspace and the submit trigger in NameEntry; the R and
SPACE triggers on Leaderboard; driver success flags and the clock. -/
structure TickInput where
  startPressed : Bool
  moveDx : Rat
  moveDy : Rat
  hRand : Nat
  yRand : Nat
  chars : List Nat
  backspace : Bool
  submit : Bool
  resetPressed : Bool
  returnPressed : Bool
  execOk : Bool
  queryOk : Bool
  now : Int
deriving DecidableEq

/-- Initial player rectangle: x 60, y screenHeight/2-20 = 280, 30x30. -/
def initPlayer : Rect := ⟨60, 280, 30, 30⟩

/-- game.New: Title state, player at start, empty obstacle list, difficulty
from the configuration (BaseSpeed, SpawnEveryStart). -/
def newGame (cfg : GameCfg) (store : Storage) : GameM :=
  { state := .title, storage := store, player := initPlayer, playerVel := 4,
    obstacles := [], score := 0, frames := 0, nameInput := [], leaders := [],
    speed := cfg.baseSpeed, spawnEvery := cfg.spawnEveryStart }

/-- Game.resetPlay: player back to start, obstacles cleared, score and frame
counter zeroed, and the difficulty knobs set to the literals 4 and 60 (the
code does not read cfg here). -/
def resetPlay (g : GameM) : GameM :=
  { g with player := initPlayer, obstacles := [], score := 0, frames := 0,
           speed := 4, spawnEvery := 60 }

/-- Clamp-to-screen block of the Playing tick, in code order: left, top,
right, bottom. -/
def clampPlayer (r : Rect) : Rect :=
  let x1 := if r.x < 0 then 0 else r.x
  let y1 := if r.y < 0 then 0 else r.y
  let x2 := if x1 + r.w > 800 then 800 - r.w else x1
  let y2 := if y1 + r.h > 600 then 600 - r.h else y1
  ⟨x2, y2, r.w, r.h⟩

/-- Game.spawnObstacle: height 40+rand.Intn(140), y rand.Intn(600-height),
x at the right edge 800, width 20. -/
def spawnObstacle (hRand yRand : Nat) : Rect :=
  ⟨800, ((yRand % (600 - (40 + hRand % 140)) : Nat) : Rat), 20,
   ((40 + hRand % 140 : Nat) : Rat)⟩

/-- One obstacle advanced leftward by the current speed. -/
def moveObs (speed : Rat) (o : Rect) : Rect := { o with x := o.x - speed }

/-- Obstacle loop of the Playing tick: move each obstacle, keep it in the
alive prefix when its right edge is still right of 0, and test collision
against the (already clamped) player.  On the first hit the loop returns
early: the Go slice keeps its original length, its first entries are the
moved survivors written so far and the rest still hold the original values,
which is alive ++ orig.drop alive.length; the flag records the hit. -/
def obsLoop (p : Rect) (speed : Rat) (orig : List Rect) (alive : List Rect) :
    List Rect → List Rect × Bool
  | [] => (alive, false)
  | o :: rest =>
    let o' := moveObs speed o
    let alive' := if 0 < o'.x + o'.w then alive ++ [o'] else alive
    if rectIntersects p o' then (alive' ++ orig.drop alive'.length, true)
    else obsLoop p speed orig alive' rest

/-- Playing tick (game.go lines 272-381): movement then clamp, spawn when
frames is a multiple of the current spawn interval, difficulty ramp when
frames is a multiple of the accel interval (interval minus 4 while above the
floor, speed plus the accel step), obstacle move/prune/collide with the NEW
speed, and on no collision the frame counter and the every-10-frames score
increment; on collision the state flips to NameEntry with a cleared buffer
and frames and score are left as they were. -/
def playTick (cfg : GameCfg) (g : GameM) (inp : TickInput) : GameM :=
  let p2 := clampPlayer ⟨g.player.x + inp.moveDx, g.player.y + inp.moveDy,
                         g.player.w, g.player.h⟩
  let obs1 := if g.frames.emod g.spawnEvery = 0 then
      g.obstacles ++ [spawnObstacle inp.hRand inp.yRand]
    else g.obstacles
  let se := if g.frames.emod cfg.accelIntervalFrames = 0 ∧ cfg.spawnEveryMin < g.spawnEvery then
      g.spawnEvery - 4
    else g.spawnEvery
  let sp := if g.frames.emod cfg.accelIntervalFrames = 0 then g.speed + cfg.speedAccel
    else g.speed
  let res := obsLoop p2 sp obs1 [] obs1
  if res.2 then
    { g with player := p2, obstacles := res.1, speed := sp, spawnEvery := se,
             state := .nameEntry, nameInput := [] }
  else
    { g with player := p2, obstacles := res.1, speed := sp, spawnEvery := se,
             frames := g.frames + 1,
             score := if (g.frames + 1).emod 10 = 0 then g.score + 1 else g.score }

/-- One InputChars rune: newline and carriage return are skipped; otherwise
the rune's UTF-8 encoding is appended when the buffer's byte length is below
16. -/
def charStep1 (buf : List Nat) (r : Nat) : List Nat :=
  if r = 10 ∨ r = 13 then buf
  else if buf.length < 16 then buf ++ utf8Encode r
  else buf

/-- The InputChars loop over all runes typed this tick. -/
def charFold (buf : List Nat) : List Nat → List Nat
  | [] => buf
  | r :: rs => charFold (charStep1 buf r) rs

/-- Backspace handler: drop the final byte of a nonempty buffer. -/
def backspaceStep (buf : List Nat) : List Nat :=
  if buf = [] then buf else buf.dropLast

/-- Name buffer after one NameEntry tick's edits, in code order: typed
runes, then backspace. -/
def editBuf (buf : List Nat) (inp : TickInput) : List Nat :=
  let b1 := charFold buf inp.chars
  if inp.backspace then backspaceStep b1 else b1

/-- Name passed to SaveWinner on submit: the trimmed buffer, or "PLAYER"
when the trimmed buffer is empty. -/
def submitName (buf : List Nat) : List Nat :=
  if trimSpace buf = [] then playerName else trimSpace buf

/-- Storage after a SaveWinner whose error is discarded. -/
def storeAfterSave (st : Storage) (name : List Nat) (score now : Int)
    (execOk : Bool) : Storage :=
  match saveWinner st name score now execOk with
  | .ok s => s
  | .error _ => st

/-- Leaders refresh g.leaders, _ = store.TopWinners(topN): on error the
assigned slice is nil, i.e. the empty list. -/
def leadersRefresh (st : Storage) (topN now : Int) (queryOk : Bool) :
    List Winner × Storage :=
  match topWinners st topN now queryOk with
  | (.ok ws, st') => (ws, st')
  | (.error _, st') => ([], st')

/-- Storage after a Reset whose error is discarded. -/
def storeAfterReset (st : Storage) (execOk : Bool) : Storage :=
  match resetStore st execOk with
  | .ok s => s
  | .error _ => st

/-- One Game.Update tick, dispatching on the session state exactly as the
switch does: Title starts a run on the start trigger; Playing advances the
simulation; NameEntry edits the buffer and on the submit trigger saves
(whatever the store answers), refreshes the leader list and moves to
Leaderboard; Leaderboard resets the store on R and returns to Title on
SPACE. -/
def step (cfg : GameCfg) (g : GameM) (inp : TickInput) : GameM :=
  match g.state with
  | .title =>
    if inp.startPressed then { resetPlay g with state := .playing } else g
  | .playing => playTick cfg g inp
  | .nameEntry =>
    let buf := editBuf g.nameInput inp
    if inp.submit then
      let st1 := storeAfterSave g.storage (submitName buf) g.score inp.now inp.execOk
      let lr := leadersRefresh st1 cfg.topN inp.now inp.queryOk
      { g with nameInput := buf, storage := lr.2, leaders := lr.1,
               state := .leaderboard }
    else { g with nameInput := buf }
  | .leaderboard =>
    let g1 := if inp.resetPressed then
        let st1 := storeAfterReset g.storage inp.execOk
        let lr := leadersRefresh st1 cfg.topN inp.now inp.queryOk
        { g with storage := lr.2, leaders := lr.1 }
      else g
    if inp.returnPressed then { g1 with state := .title } else g1

/-- A run of the update loop from a state through a list of tick inputs. -/
def run (cfg : GameCfg) (g0 : GameM) : List TickInput → GameM
  | [] => g0
  | i :: is => run cfg (step cfg g0 i) is

/-! ## Invariants of the session loop -/

/-- Every live obstacle's right edge is right of the left boundary. -/
def obsInv (g : GameM) : Prop := ∀ o ∈ g.obstacles, 0 < o.x + o.w

/-- The player rectangle never changes size. -/
def sizeInv (g : GameM) : Prop := g.player.w = 30 ∧ g.player.h = 30

/-- Outside the initial Title screen the spawn interval is either still the
reset value 60 or strictly above the floor minus the step. -/
def spawnInv (cfg : GameCfg) (g : GameM) : Prop :=
  g.state = .title ∨ g.spawnEvery = 60 ∨ cfg.spawnEveryMin - 4 < g.spawnEvery

/-- Combined reachable-state invariant. -/
def GInv (cfg : GameCfg) (g : GameM) : Prop :=
  obsInv g ∧ sizeInv g ∧ spawnInv cfg g

theorem clampPlayer_w (r : Rect) : (clampPlayer r).w = r.w := rfl

theorem clampPlayer_h (r : Rect) : (clampPlayer r).h = r.h := rfl

theorem clampPlayer_bounds (r : Rect) (hw : r.w ≤ 800) (hh : r.h ≤ 600) :
    0 ≤ (clampPlayer r).x ∧ (clampPlayer r).x + (clampPlayer r).w ≤ 800 ∧
    0 ≤ (clampPlayer r).y ∧ (clampPlayer r).y + (clampPlayer r).h ≤ 600 := by
  unfold clampPlayer
  dsimp only
  split_ifs <;> exact ⟨by linarith, by linarith, by linarith, by linarith⟩

theorem obsLoop_mem (p : Rect) (speed : Rat) (orig : List Rect) :
    ∀ (rem alive : List Rect), (∀ o ∈ orig, 0 < o.x + o.w) →
      (∀ o ∈ alive, 0 < o.x + o.w) →
      ∀ o ∈ (obsLoop p speed orig alive rem).1, 0 < o.x + o.w := by
  intro rem
  induction rem with
  | nil =>
    intro alive horig halive o ho
    simp only [obsLoop] at ho
    exact halive o ho
  | cons ob rest ih =>
    intro alive horig halive z hz
    simp only [obsLoop] at hz
    have halive' : ∀ o ∈ (if 0 < (moveObs speed ob).x + (moveObs speed ob).w then
        alive ++ [moveObs speed ob] else alive), 0 < o.x + o.w := by
      split
      · rename_i hpr
        intro o ho
        rcases List.mem_append.mp ho with h1 | h1
        · exact halive o h1
        · rw [List.mem_singleton] at h1
          subst h1
          exact hpr
      · exact halive
    split at hz
    · rcases List.mem_append.mp hz with h1 | h1
      · exact halive' z h1
      · exact horig z (List.drop_subset _ orig h1)
    · exact ih _ horig halive' z hz

theorem obsLoop_hit (p : Rect) (speed : Rat) (orig : List Rect) :
    ∀ (rem alive : List Rect),
      ((obsLoop p speed orig alive rem).2 = true ↔
        ∃ o ∈ rem, rectIntersects p (moveObs speed o) = true) := by
  intro rem
  induction rem with
  | nil =>
    intro alive
    simp [obsLoop]
  | cons ob rest ih =>
    intro alive
    simp only [obsLoop]
    by_cases hcol : rectIntersects p (moveObs speed ob) = true
    · rw [if_pos hcol]
      constructor
      · intro _
        exact ⟨ob, by simp, hcol⟩
      · intro _
        rfl
    · rw [if_neg hcol]
      rw [ih _]
      constructor
      · rintro ⟨z, hz, hzc⟩
        exact ⟨z, List.mem_cons_of_mem ob hz, hzc⟩
      · rintro ⟨z, hz, hzc⟩
        rcases List.mem_cons.mp hz with rfl | hz'
        · exact absurd hzc hcol
        · exact ⟨z, hz', hzc⟩

/-- The moved-and-pruned obstacle list of one tick. -/
def prunedMoved (speed : Rat) (l : List Rect) : List Rect :=
  (l.map (moveObs speed)).filter (fun o => decide (0 < o.x + o.w))

theorem hit_iff_pruned (p : Rect) (speed : Rat) (rem : List Rect) (hp : 0 ≤ p.x) :
    (∃ o ∈ rem, rectIntersects p (moveObs speed o) = true) ↔
    (∃ o ∈ prunedMoved speed rem, rectIntersects p o = true) := by
  constructor
  · rintro ⟨o, ho, hc⟩
    refine ⟨moveObs speed o, ?_, hc⟩
    have hx : p.x < (moveObs speed o).x + (moveObs speed o).w := by
      have hc' := hc
      unfold rectIntersects at hc'
      simp only [Bool.and_eq_true, decide_eq_true_eq] at hc'
      exact hc'.1.1.1
    have hpos : 0 < (moveObs speed o).x + (moveObs speed o).w := lt_of_le_of_lt hp hx
    unfold prunedMoved
    rw [List.mem_filter]
    exact ⟨List.mem_map.mpr ⟨o, ho, rfl⟩, by simpa using hpos⟩
  · rintro ⟨o', ho', hc⟩
    unfold prunedMoved at ho'
    rw [List.mem_filter] at ho'
    obtain ⟨o, ho, rfl⟩ := List.mem_map.mp ho'.1
    exact ⟨o, ho, hc⟩

theorem playTick_player (cfg : GameCfg) (g : GameM) (inp : TickInput) :
    (playTick cfg g inp).player =
      clampPlayer ⟨g.player.x + inp.moveDx, g.player.y + inp.moveDy,
                   g.player.w, g.player.h⟩ := by
  unfold playTick
  dsimp only
  split_ifs <;> rfl

theorem playTick_spawnEvery (cfg : GameCfg) (g : GameM) (inp : TickInput) :
    (playTick cfg g inp).spawnEvery =
      if g.frames.emod cfg.accelIntervalFrames = 0 ∧ cfg.spawnEveryMin < g.spawnEvery
      then g.spawnEvery - 4 else g.spawnEvery := by
  unfold playTick
  dsimp only
  split_ifs <;> rfl

theorem playTick_state (cfg : GameCfg) (g : GameM) (inp : TickInput) :
    (playTick cfg g inp).state = .nameEntry ∨ (playTick cfg g inp).state = g.state := by
  unfold playTick
  dsimp only
  split_ifs <;> simp

theorem playTick_obsInv (cfg : GameCfg) (g : GameM) (inp : TickInput) (h : obsInv g) :
    obsInv (playTick cfg g inp) := by
  have hspawn : ∀ o ∈ g.obstacles ++ [spawnObstacle inp.hRand inp.yRand],
      0 < o.x + o.w := by
    intro o ho
    rcases List.mem_append.mp ho with h1 | h1
    · exact h o h1
    · rw [List.mem_singleton] at h1
      subst h1
      show (0 : Rat) < 800 + 20
      norm_num
  unfold playTick obsInv
  dsimp only
  split_ifs <;>
    first
      | exact fun o ho => obsLoop_mem _ _ _ _ _ hspawn (by simp) o ho
      | exact fun o ho => obsLoop_mem _ _ _ _ _ h (by simp) o ho

theorem step_GInv (cfg : GameCfg) (g : GameM) (inp : TickInput) (h : GInv cfg g) :
    GInv cfg (step cfg g inp) := by
  obtain ⟨ho, hsz, hsp⟩ := h
  rcases g with ⟨st, store, player, pvel, obstacles, score, frames, nameInput,
    leaders, speed, spawnEvery⟩
  have hval : st ≠ .title → spawnEvery = 60 ∨ cfg.spawnEveryMin - 4 < spawnEvery := by
    intro hne
    rcases hsp with h1 | h1
    · exact absurd h1 hne
    · exact h1
  cases st with
  | title =>
    unfold step
    dsimp only
    split_ifs with hstart
    · exact ⟨fun o hoo => by simp [resetPlay] at hoo, ⟨rfl, rfl⟩, Or.inr (Or.inl rfl)⟩
    · exact ⟨ho, hsz, hsp⟩
  | playing =>
    unfold step
    dsimp only
    refine ⟨playTick_obsInv _ _ _ ho, ?_, ?_⟩
    · constructor
      · rw [playTick_player, clampPlayer_w]
        exact hsz.1
      · rw [playTick_player, clampPlayer_h]
        exact hsz.2
    · unfold spawnInv
      rw [playTick_spawnEvery]
      have hv := hval (by decide)
      dsimp only
      split_ifs with hacc
      · right; right; omega
      · rcases hv with h1 | h1
        · right; left; exact h1
        · right; right; exact h1
  | nameEntry =>
    unfold step
    dsimp only
    split_ifs with hsub
    · exact ⟨ho, hsz, Or.inr (hval (by decide))⟩
    · exact ⟨ho, hsz, Or.inr (hval (by decide))⟩
  | leaderboard =>
    unfold step
    dsimp only
    split_ifs <;>
      first
        | exact ⟨ho, hsz, Or.inl rfl⟩
        | exact ⟨ho, hsz, Or.inr (hval (by decide))⟩

theorem newGame_GInv (cfg : GameCfg) (store : Storage) :
    GInv cfg (newGame cfg store) :=
  ⟨fun o ho => by simp [newGame] at ho, ⟨rfl, rfl⟩, Or.inl rfl⟩

theorem run_GInv (cfg : GameCfg) : ∀ (inputs : List TickInput) (g0 : GameM),
    GInv cfg g0 → GInv cfg (run cfg g0 inputs) := by
  intro inputs
  induction inputs with
  | nil =>
    intro g0 h
    exact h
  | cons i is ih =>
    intro g0 h
    exact ih _ (step_GInv cfg g0 i h)

/-! ## Concrete inputs used by witnesses and counterexamples -/

/-- Idle tick: no triggers, no movement, zero random draws, drivers succeed,
clock at 0. -/
def tickNone : TickInput :=
  ⟨false, 0, 0, 0, 0, [], false, false, false, false, true, true, 0⟩

/-- Tick carrying only the start trigger. -/
def tickStart : TickInput := { tickNone with startPressed := true }

/-- Tick carrying only the submit trigger. -/
def tickSubmit : TickInput := { tickNone with submit := true }

/-! ## Claim C5: the spawn-interval floor -/

/-- Configuration with floor 58 and the ramp firing every frame: 60 - 58 is
not a multiple of the step 4, so the first ramp step jumps over the floor. -/
def cfg58 : GameCfg :=
  { baseSpeed := 4, spawnEveryStart := 60, spawnEveryMin := 58,
    speedAccel := 2/5, accelIntervalFrames := 1, topN := 10 }

/-- Claim C5 counterexample.  With spawnEveryMin = 58, one Playing tick after
the start takes the spawn interval from 60 to 56, strictly below the
configured floor: the decrement fires whenever the interval is still above
the floor and subtracts a full step of 4, overshooting by up to 3. -/
theorem c5_counterexample :
    (run cfg58 (newGame cfg58 ⟨[], 1, newCache 30⟩) [tickStart, tickNone]).spawnEvery = 56 ∧
    cfg58.spawnEveryMin = 58 := by
  refine ⟨?_, rfl⟩
  have heq : run cfg58 (newGame cfg58 ⟨[], 1, newCache 30⟩) [tickStart, tickNone] =
      playTick cfg58
        { resetPlay (newGame cfg58 ⟨[], 1, newCache 30⟩) with state := .playing }
        tickNone := rfl
  rw [heq, playTick_spawnEvery]
  norm_num [resetPlay, newGame, cfg58, tickNone]

/-- Claim C5, amended: from the start of a run (resetPlay sets the interval
to the literal 60) the spawn interval never drops below
min 60 (spawnEveryMin - 3): each ramp step fires only while the interval is
strictly above the floor and subtracts 4, so it can overshoot the floor by
at most 3; when 60 - spawnEveryMin is a nonnegative multiple of 4 (as with
the default floor 24) the interval lands exactly on the floor and never goes
below it. -/
theorem c5_floor (cfg : GameCfg) (store : Storage) (inputs : List TickInput)
    (h : (run cfg (newGame cfg store) inputs).state = .playing) :
    min 60 (cfg.spawnEveryMin - 3) ≤
      (run cfg (newGame cfg store) inputs).spawnEvery := by
  obtain ⟨-, -, hsp⟩ := run_GInv cfg inputs _ (newGame_GInv cfg store)
  rcases hsp with h1 | h1 | h1
  · rw [h] at h1
    exact absurd h1 (by decide)
  · rw [h1]
    exact min_le_left _ _
  · calc min 60 (cfg.spawnEveryMin - 3) ≤ cfg.spawnEveryMin - 3 := min_le_right _ _
      _ ≤ (run cfg (newGame cfg store) inputs).spawnEvery := by omega

/-- Witness for c5_floor: the state right after the start trigger. -/
theorem c5_floor_witness :
    min 60 (defaultCfg.spawnEveryMin - 3) ≤
      (run defaultCfg (newGame defaultCfg ⟨[], 1, newCache 30⟩) [tickStart]).spawnEvery :=
  c5_floor defaultCfg ⟨[], 1, newCache 30⟩ [tickStart] rfl

/-! ## Claim C6: pruning and collision -/

/-- Claim C6.  First conjunct: in every reachable session state - in
particular after every Playing tick - every live obstacle satisfies
x + w > 0.  Second conjunct: the tick's collision outcome is exactly a
collision against the moved-and-pruned list whenever the player's left edge
is at or right of the boundary (which the clamp guarantees before the loop
runs): obstacles whose right edge has passed the left boundary can never
produce the hit, even though the code's single loop tests them. -/
theorem c6_prune (cfg : GameCfg) (store : Storage) (inputs : List TickInput)
    (p : Rect) (speed : Rat) (rem : List Rect) :
    (∀ o ∈ (run cfg (newGame cfg store) inputs).obstacles, 0 < o.x + o.w) ∧
    (0 ≤ p.x →
      (((obsLoop p speed rem [] rem).2 = true) ↔
        ∃ o ∈ prunedMoved speed rem, rectIntersects p o = true)) := by
  constructor
  · exact (run_GInv cfg inputs _ (newGame_GInv cfg store)).1
  · intro hp
    rw [obsLoop_hit p speed rem rem []]
    exact hit_iff_pruned p speed rem hp

/-- Witness for c6_prune at a concrete obstacle list and the initial player. -/
theorem c6_prune_witness :
    (∀ o ∈ (run defaultCfg (newGame defaultCfg ⟨[], 1, newCache 30⟩) []).obstacles,
      0 < o.x + o.w) ∧
    (((obsLoop initPlayer 4 [⟨900, 0, 20, 40⟩] [] [⟨900, 0, 20, 40⟩]).2 = true) ↔
      ∃ o ∈ prunedMoved 4 [⟨900, 0, 20, 40⟩], rectIntersects initPlayer o = true) := by
  have h := c6_prune defaultCfg ⟨[], 1, newCache 30⟩ [] initPlayer 4 [⟨900, 0, 20, 40⟩]
  exact ⟨h.1, h.2 (by norm_num [initPlayer])⟩

/-! ## Claim C7: what the start transition resets -/

/-- Configuration whose gameplay baseline differs from the hard-coded reset
values. -/
def cfgAlt : GameCfg :=
  { baseSpeed := 5, spawnEveryStart := 45, spawnEveryMin := 24,
    speedAccel := 2/5, accelIntervalFrames := 300, topN := 10 }

/-- Claim C7 evaluated at a failing configuration.  The start transition
does reset score, obstacles, frames and the player, but resetPlay hard-codes
speed = 4 and spawnEvery = 60, ignoring cfg.BaseSpeed = 5 and
cfg.SpawnEveryStart = 45 that game.New reads from the same configuration -
so the difficulty knobs are NOT reset to the configured baseline. -/
theorem c7_reset_bug :
    (step cfgAlt (newGame cfgAlt ⟨[], 1, newCache 30⟩) tickStart).state = .playing ∧
    (step cfgAlt (newGame cfgAlt ⟨[], 1, newCache 30⟩) tickStart).score = 0 ∧
    (step cfgAlt (newGame cfgAlt ⟨[], 1, newCache 30⟩) tickStart).obstacles = [] ∧
    (step cfgAlt (newGame cfgAlt ⟨[], 1, newCache 30⟩) tickStart).frames = 0 ∧
    (step cfgAlt (newGame cfgAlt ⟨[], 1, newCache 30⟩) tickStart).player = initPlayer ∧
    (step cfgAlt (newGame cfgAlt ⟨[], 1, newCache 30⟩) tickStart).speed = 4 ∧
    (step cfgAlt (newGame cfgAlt ⟨[], 1, newCache 30⟩) tickStart).spawnEvery = 60 ∧
    cfgAlt.baseSpeed = 5 ∧ cfgAlt.spawnEveryStart = 45 ∧
    (step cfgAlt (newGame cfgAlt ⟨[], 1, newCache 30⟩) tickStart).speed ≠ cfgAlt.baseSpeed ∧
    (step cfgAlt (newGame cfgAlt ⟨[], 1, newCache 30⟩) tickStart).spawnEvery ≠ cfgAlt.spawnEveryStart := by
  refine ⟨rfl, rfl, rfl, rfl, rfl, rfl, rfl, rfl, rfl, ?_, ?_⟩
  · show ¬ ((4 : Rat) = 5)
    decide
  · show ¬ ((60 : Int) = 45)
    decide

/-! ## Claim C10: the player never leaves the 800x600 field -/

/-- Claim C10.  After any Playing tick from any reachable state, whatever
displacement the movement input produced, the clamped player rectangle lies
entirely within the 800x600 play field. -/
theorem c10_bounds (cfg : GameCfg) (store : Storage) (inputs : List TickInput)
    (inp : TickInput)
    (h : (run cfg (newGame cfg store) inputs).state = .playing) :
    0 ≤ (step cfg (run cfg (newGame cfg store) inputs) inp).player.x ∧
    (step cfg (run cfg (newGame cfg store) inputs) inp).player.x +
      (step cfg (run cfg (newGame cfg store) inputs) inp).player.w ≤ 800 ∧
    0 ≤ (step cfg (run cfg (newGame cfg store) inputs) inp).player.y ∧
    (step cfg (run cfg (newGame cfg store) inputs) inp).player.y +
      (step cfg (run cfg (newGame cfg store) inputs) inp).player.h ≤ 600 := by
  obtain ⟨-, hsz, -⟩ := run_GInv cfg inputs _ (newGame_GInv cfg store)
  generalize hG : run cfg (newGame cfg store) inputs = g at h hsz ⊢
  have hstep : step cfg g inp = playTick cfg g inp := by
    unfold step
    rw [h]
  rw [hstep, playTick_player]
  apply clampPlayer_bounds
  · show g.player.w ≤ 800
    rw [hsz.1]
    norm_num
  · show g.player.h ≤ 600
    rw [hsz.2]
    norm_num

/-- Tick trying to drag the player far off screen. -/
def tickFling : TickInput := { tickNone with moveDx := -1000, moveDy := 1000 }

/-- Witness for c10_bounds: one Playing tick right after the start, with a
displacement that would put the player far outside the field. -/
theorem c10_bounds_witness :
    0 ≤ (step defaultCfg (run defaultCfg (newGame defaultCfg ⟨[], 1, newCache 30⟩)
        [tickStart]) tickFling).player.x ∧
    (step defaultCfg (run defaultCfg (newGame defaultCfg ⟨[], 1, newCache 30⟩)
        [tickStart]) tickFling).player.x +
      (step defaultCfg (run defaultCfg (newGame defaultCfg ⟨[], 1, newCache 30⟩)
        [tickStart]) tickFling).player.w ≤ 800 ∧
    0 ≤ (step defaultCfg (run defaultCfg (newGame defaultCfg ⟨[], 1, newCache 30⟩)
        [tickStart]) tickFling).player.y ∧
    (step defaultCfg (run defaultCfg (newGame defaultCfg ⟨[], 1, newCache 30⟩)
        [tickStart]) tickFling).player.y +
      (step defaultCfg (run defaultCfg (newGame defaultCfg ⟨[], 1, newCache 30⟩)
        [tickStart]) tickFling).player.h ≤ 600 :=
  c10_bounds defaultCfg ⟨[], 1, newCache 30⟩ [tickStart] tickFling rfl

/-! ## Claim C8: NameEntry buffer edits -/

/-- UTF-8 encoding of a rune list, as appending each typed rune to a Go
string produces it. -/
def encodeRunes : List Nat → List Nat
  | [] => []
  | r :: rs => utf8Encode r ++ encodeRunes rs

theorem utf8Encode_len_pos (r : Nat) : 1 ≤ (utf8Encode r).length := by
  unfold utf8Encode
  split_ifs <;> simp

theorem encodeRunes_len (rs : List Nat) : rs.length ≤ (encodeRunes rs).length := by
  induction rs with
  | nil => simp [encodeRunes]
  | cons r rs ih =>
    have := utf8Encode_len_pos r
    simp only [encodeRunes, List.length_append, List.length_cons]
    omega

theorem encodeRunes_append (rs : List Nat) (c : Nat) :
    encodeRunes (rs ++ [c]) = encodeRunes rs ++ utf8Encode c := by
  induction rs with
  | nil => simp [encodeRunes]
  | cons r rs ih => simp [encodeRunes, ih]

/-- Claim C8 counterexample.  The claim says backspace removes exactly the
last character.  Typing the single character U+00E9 into an empty buffer
stores its two-byte UTF-8 encoding 195, 169 (the byte-length check, not a
character count, guards the append); backspace then removes only the final
BYTE, leaving the dangling lead byte 195 instead of the empty buffer that
removing the last character would produce. -/
theorem c8_counterexample :
    charFold [] [233] = [195, 169] ∧
    backspaceStep [195, 169] = [195] ∧
    backspaceStep (charFold [] [233]) ≠ encodeRunes [] := by
  refine ⟨rfl, rfl, ?_⟩
  decide

/-- Claim C8, amended.  A printable rune is appended exactly when the
buffer's BYTE length is below 16 (which implies it holds fewer than 16
characters, each being at least one byte); newline and carriage return are
never appended; backspace removes the last BYTE of a nonempty buffer - equal
to the last character precisely when that character is single-byte ASCII -
and does nothing on an empty buffer. -/
theorem c8_amended (buf : List Nat) (r : Nat) (rs : List Nat) (c : Nat) :
    (r ≠ 10 → r ≠ 13 → buf.length < 16 → charStep1 buf r = buf ++ utf8Encode r) ∧
    (16 ≤ buf.length → charStep1 buf r = buf) ∧
    charStep1 buf 10 = buf ∧
    charStep1 buf 13 = buf ∧
    (buf ≠ [] → backspaceStep buf = buf.dropLast) ∧
    backspaceStep [] = [] ∧
    ((encodeRunes rs).length < 16 → rs.length < 16) ∧
    (c < 128 → backspaceStep (encodeRunes (rs ++ [c])) = encodeRunes rs) := by
  refine ⟨?_, ?_, ?_, ?_, ?_, rfl, ?_, ?_⟩
  · intro h10 h13 hlen
    have hne : ¬ (r = 10 ∨ r = 13) := by tauto
    simp [charStep1, hne, hlen]
  · intro hlen
    unfold charStep1
    split_ifs with h1 h2
    · rfl
    · omega
    · rfl
  · simp [charStep1]
  · simp [charStep1]
  · intro hne
    simp [backspaceStep, hne]
  · intro hlen
    have := encodeRunes_len rs
    omega
  · intro hc
    rw [encodeRunes_append]
    have henc : utf8Encode c = [c] := by simp [utf8Encode, hc]
    rw [henc]
    unfold backspaceStep
    split_ifs with hemp
    · exact absurd hemp (by simp)
    · exact List.dropLast_concat

/-- Witness for c8_amended, exercising each hypothesis at concrete inputs:
appending B to the one-byte buffer A, a full 16-byte buffer rejecting input,
newline and carriage return ignored, backspace on a two-byte and on the
empty buffer, and the byte-versus-character length link on the buffer FG. -/
theorem c8_amended_witness :
    charStep1 [65] 66 = [65, 66] ∧
    charStep1 [65, 65, 65, 65, 65, 65, 65, 65, 65, 65, 65, 65, 65, 65, 65, 65] 66 =
      [65, 65, 65, 65, 65, 65, 65, 65, 65, 65, 65, 65, 65, 65, 65, 65] ∧
    charStep1 [65] 10 = [65] ∧
    charStep1 [65] 13 = [65] ∧
    backspaceStep [65, 66] = [65] ∧
    backspaceStep [] = [] ∧
    ([70, 71] : List Nat).length < 16 ∧
    backspaceStep (encodeRunes [70, 71]) = encodeRunes [70] := by
  refine ⟨(c8_amended [65] 66 [] 0).1 (by decide) (by decide) (by decide),
    (c8_amended [65, 65, 65, 65, 65, 65, 65, 65, 65, 65, 65, 65, 65, 65, 65, 65] 66
      [] 0).2.1 (by decide),
    (c8_amended [65] 0 [] 0).2.2.1,
    (c8_amended [65] 0 [] 0).2.2.2.1,
    (c8_amended [65, 66] 0 [] 0).2.2.2.2.1 (by decide),
    (c8_amended [] 0 [] 0).2.2.2.2.2.1,
    (c8_amended [] 0 [70, 71] 0).2.2.2.2.2.2.1 (by decide),
    (c8_amended [] 0 [70] 71).2.2.2.2.2.2.2 (by decide)⟩

/-! ## Claim C9: the submit transition -/

theorem topWinners_snd_winners (s : Storage) (limit now : Int) (q : Bool) :
    (topWinners s limit now q).2.winners = s.winners := by
  unfold topWinners
  rcases hc : cacheGet s.cache (adjLimit limit) now with ⟨r, c'⟩
  cases r <;> cases q <;> rfl

theorem leadersRefresh_winners (st : Storage) (n now : Int) (q : Bool) :
    (leadersRefresh st n now q).2.winners = st.winners := by
  unfold leadersRefresh
  rcases htp : topWinners st n now q with ⟨r, st'⟩
  have hw := topWinners_snd_winners st n now q
  rw [htp] at hw
  cases r <;> exact hw

/-- Claim C9.  On the submit trigger in NameEntry the session always moves
to Leaderboard - the SaveWinner and TopWinners errors are discarded, so the
transition happens for every combination of driver outcomes - and the name
passed to the store is the trimmed buffer with "PLAYER" substituted for an
empty trim, hence never empty; when the insert succeeds the stored row
carries exactly that name. -/
theorem c9_submit (cfg : GameCfg) (g : GameM) (inp : TickInput)
    (hst : g.state = .nameEntry) (hsub : inp.submit = true) :
    (step cfg g inp).state = .leaderboard ∧
    submitName (editBuf g.nameInput inp) ≠ [] ∧
    (inp.execOk = true →
      (step cfg g inp).storage.winners =
        g.storage.winners ++
          [⟨g.storage.nextId, submitName (editBuf g.nameInput inp), g.score, inp.now⟩]) := by
  have hname : submitName (editBuf g.nameInput inp) ≠ [] := by
    unfold submitName
    split_ifs with htr
    · decide
    · exact htr
  rcases g with ⟨st, store, player, pvel, obstacles, score, frames, nameInput,
    leaders, speed, spawnEvery⟩
  have hst' : st = .nameEntry := hst
  subst hst'
  dsimp only at hname ⊢
  unfold step
  dsimp only
  rw [if_pos hsub]
  refine ⟨rfl, hname, fun hexec => ?_⟩
  dsimp only
  rw [leadersRefresh_winners]
  unfold storeAfterSave
  rw [show saveWinner store (submitName (editBuf nameInput inp)) score inp.now inp.execOk =
      .ok ⟨store.winners ++ [⟨store.nextId, submitName (editBuf nameInput inp),
            score, inp.now⟩], store.nextId + 1, invalidateAll store.cache⟩ from by
    rw [hexec]
    unfold saveWinner
    rw [if_neg hname]
    rfl]

/-- Session parked in NameEntry with a whitespace-only buffer. -/
def gNameEntry : GameM :=
  { state := .nameEntry, storage := ⟨[], 1, newCache 30⟩, player := initPlayer,
    playerVel := 4, obstacles := [], score := 0, frames := 0,
    nameInput := [32, 32], leaders := [], speed := 4, spawnEvery := 60 }

/-- Witness for c9_submit: submitting the two-space buffer stores the
default name PLAYER and lands in Leaderboard. -/
theorem c9_submit_witness :
    (step defaultCfg gNameEntry tickSubmit).state = .leaderboard ∧
    submitName (editBuf [32, 32] tickSubmit) ≠ [] ∧
    (step defaultCfg gNameEntry tickSubmit).storage.winners =
      [⟨1, playerName, 0, 0⟩] := by
  have h := c9_submit defaultCfg gNameEntry tickSubmit rfl rfl
  refine ⟨h.1, h.2.1, ?_⟩
  have h3 := h.2.2 rfl
  rw [h3]
  rfl
